import Mathlib

/-!
Verification of the byte-buffer arithmetic kernel of the Eidolon math library.

A fixed-width value of byte width W is embedded as a `List Nat` of length W,
least-significant byte first, every entry below 256.  Each `ebm_*` definition
is a direct translation of the corresponding Rust function in
`src/bits/bit_operations/`: the Rust code views a value as its little-endian
byte array (`a_bytes[i]` carrying weight 256^i, as the arithmetic routines
assume) and loops over byte indices `0..size`; the embedding performs the same
loops over the list.  `u8`/`u16`/`u32` intermediates are modelled as `Nat`;
`% 256`, `% 2` and friends appear exactly where the source masks (`& 0xFF`,
`& 0x1`, `as u8`), and shift counts on `u64` values are reduced `% 64` as the
compiled (release) semantics of Rust shifts do.  `usize::wrapping_sub` is
modelled as addition of 2^64 followed by `% 2^64`.
-/

namespace Eidolon

/-- Value of a little-endian byte list: sum of byte i times 256^i. -/
def toNat : List Nat → Nat
  | [] => 0
  | b :: rest => b + 256 * toNat rest

/-- Decompose a number into `w` little-endian bytes (truncating above 256^w). -/
def fromNat (w x : Nat) : List Nat :=
  (List.range w).map (fun i => x / 256 ^ i % 256)

theorem toNat_nil : toNat [] = 0 := rfl

theorem toNat_cons (b : Nat) (rest : List Nat) :
    toNat (b :: rest) = b + 256 * toNat rest := rfl

theorem toNat_lt : ∀ (l : List Nat), (∀ x ∈ l, x < 256) → toNat l < 256 ^ l.length := by
  intro l
  induction l with
  | nil => intro _; simp [toNat]
  | cons b rest ih =>
    intro h
    have hb : b < 256 := h b (List.mem_cons_self b rest)
    have hr : toNat rest < 256 ^ rest.length :=
      ih (fun x hx => h x (List.mem_cons_of_mem b hx))
    simp only [toNat, List.length_cons, pow_succ]
    calc b + 256 * toNat rest < 256 + 256 * toNat rest := by omega
      _ = 256 * (toNat rest + 1) := by ring
      _ ≤ 256 * 256 ^ rest.length := by
          exact Nat.mul_le_mul_left 256 hr
      _ = 256 ^ rest.length * 256 := by ring

theorem toNat_append : ∀ (l₁ l₂ : List Nat),
    toNat (l₁ ++ l₂) = toNat l₁ + 256 ^ l₁.length * toNat l₂ := by
  intro l₁ l₂
  induction l₁ with
  | nil => simp [toNat]
  | cons b rest ih =>
    rw [List.cons_append, toNat_cons, ih, toNat_cons, List.length_cons, pow_succ]
    ring

theorem toNat_inj : ∀ (a b : List Nat), a.length = b.length →
    (∀ x ∈ a, x < 256) → (∀ x ∈ b, x < 256) → toNat a = toNat b → a = b := by
  intro a
  induction a with
  | nil =>
    intro b hlen _ _ _
    exact (List.length_eq_zero.mp hlen.symm).symm
  | cons a0 as ih =>
    intro b hlen ha hb heq
    cases b with
    | nil => simp at hlen
    | cons b0 bs =>
      have ha0 : a0 < 256 := ha a0 (List.mem_cons_self _ _)
      have hb0 : b0 < 256 := hb b0 (List.mem_cons_self _ _)
      simp only [toNat] at heq
      have h0 : a0 = b0 := by omega
      have ht : toNat as = toNat bs := by omega
      have hlen' : as.length = bs.length := by
        simpa using hlen
      have := ih bs hlen' (fun x hx => ha x (List.mem_cons_of_mem _ hx))
        (fun x hx => hb x (List.mem_cons_of_mem _ hx)) ht
      rw [h0, this]

theorem fromNat_length (w x : Nat) : (fromNat w x).length = w := by
  simp [fromNat]

theorem fromNat_bytes_lt (w x : Nat) : ∀ y ∈ fromNat w x, y < 256 := by
  intro y hy
  simp only [fromNat, List.mem_map] at hy
  obtain ⟨i, _, rfl⟩ := hy
  exact Nat.mod_lt _ (by norm_num)

theorem fromNat_succ (w x : Nat) :
    fromNat (w + 1) x = (x % 256) :: fromNat w (x / 256) := by
  simp only [fromNat, List.range_succ_eq_map, List.map_cons, List.map_map]
  congr 1
  · simp
  · apply List.map_congr_left
    intro i _
    simp only [Function.comp_apply]
    rw [Nat.div_div_eq_div_mul, Nat.pow_succ']

theorem toNat_fromNat : ∀ (w x : Nat), toNat (fromNat w x) = x % 256 ^ w := by
  intro w
  induction w with
  | zero => intro x; simp [fromNat, toNat, Nat.mod_one]
  | succ w ih =>
    intro x
    rw [fromNat_succ, toNat_cons, ih]
    rw [pow_succ', Nat.mod_mul]

theorem nat_block_mod (r c M : Nat) (hr : r < 256) :
    (r + 256 * c) % (256 * M) = r + 256 * (c % M) := by
  rcases Nat.eq_zero_or_pos M with hM | hM
  · subst hM; simp [Nat.mod_zero]
  · have hc : c = M * (c / M) + c % M := (Nat.div_add_mod c M).symm
    have h1 : r + 256 * c = (r + 256 * (c % M)) + (c / M) * (256 * M) := by
      conv_lhs => rw [hc]
      ring
    rw [h1, Nat.add_mul_mod_self_right]
    apply Nat.mod_eq_of_lt
    have h2 : c % M < M := Nat.mod_lt _ hM
    calc r + 256 * (c % M) < 256 + 256 * (c % M) := by omega
      _ = 256 * (c % M + 1) := by ring
      _ ≤ 256 * M := Nat.mul_le_mul_left 256 (by omega)

theorem int_block_mod (x c M : Int) (hx0 : 0 ≤ x) (hx : x < 256) (hM : 0 < M) :
    (x + 256 * c) % (256 * M) = x + 256 * (c % M) := by
  have hc : 256 * M * (c / M) + (x + 256 * (c % M)) = x + 256 * c := by
    have := Int.ediv_add_emod c M
    linear_combination (256 : Int) * this
  have h1 : x + 256 * c = (x + 256 * (c % M)) + 256 * M * (c / M) := by omega
  rw [h1, Int.add_mul_emod_self_left]
  apply Int.emod_eq_of_lt
  · have := Int.emod_nonneg c (by omega : M ≠ 0)
    positivity
  · have h2 : c % M < M := Int.emod_lt_of_pos c hM
    have h3 : 256 * (c % M) ≤ 256 * (M - 1) := by
      apply Int.mul_le_mul_of_nonneg_left _ (by norm_num)
      omega
    have h4 : 256 * (M - 1) = 256 * M - 256 := by ring
    omega

/-- Byte loop of `ebm_add` in `bitwise_arithmetic.rs`: at each position the
output byte is `(a[i] + b[i] + carry) & 0xFF` and the new carry is
`(sum >> 8) & 0x1`, in least-to-most-significant order. -/
def addBytes : List Nat → List Nat → Nat → List Nat
  | a0 :: as, b0 :: bs, carry =>
      (a0 + b0 + carry) % 256 :: addBytes as bs ((a0 + b0 + carry) / 256 % 2)
  | _, _, _ => []

/-- Embedding of `ebm_add` (bitwise_arithmetic.rs, lines 52-93): byte-wise
addition with carry propagation, final carry discarded. -/
def ebm_add (a b : List Nat) : List Nat := addBytes a b 0

/-- Byte loop of `ebm_sub`: at each position `diff = a[i] - b[i] - borrow` is
computed as a signed quantity, the output byte is `diff & 0xFF` and the new
borrow is 1 exactly when `diff < 0`. -/
def subBytes : List Nat → List Nat → Int → List Nat
  | a0 :: as, b0 :: bs, borrow =>
      (((a0 : Int) - (b0 : Int) - borrow) % 256).toNat ::
        subBytes as bs (if ((a0 : Int) - (b0 : Int) - borrow) < 0 then 1 else 0)
  | _, _, _ => []

/-- Embedding of `ebm_sub` (bitwise_arithmetic.rs, lines 138-179): byte-wise
subtraction with borrow propagation, borrow out of the top byte discarded. -/
def ebm_sub (a b : List Nat) : List Nat := subBytes a b 0

theorem addBytes_length : ∀ (a b : List Nat) (c : Nat),
    (addBytes a b c).length = min a.length b.length := by
  intro a
  induction a with
  | nil => intro b c; cases b <;> simp [addBytes]
  | cons a0 as ih =>
    intro b c
    cases b with
    | nil => simp [addBytes]
    | cons b0 bs => simp [addBytes, ih, Nat.succ_min_succ]

theorem addBytes_lt : ∀ (a b : List Nat) (c : Nat), ∀ x ∈ addBytes a b c, x < 256 := by
  intro a
  induction a with
  | nil => intro b c x hx; cases b <;> simp [addBytes] at hx
  | cons a0 as ih =>
    intro b c x hx
    cases b with
    | nil => simp [addBytes] at hx
    | cons b0 bs =>
      simp only [addBytes, List.mem_cons] at hx
      rcases hx with h | h
      · subst h; exact Nat.mod_lt _ (by norm_num)
      · exact ih bs _ x h

theorem addBytes_toNat : ∀ (a b : List Nat) (c : Nat), a.length = b.length →
    (∀ x ∈ a, x < 256) → (∀ x ∈ b, x < 256) → c ≤ 1 →
    toNat (addBytes a b c) = (toNat a + toNat b + c) % 256 ^ a.length := by
  intro a
  induction a with
  | nil =>
    intro b c hlen _ _ _
    have : b = [] := List.length_eq_zero.mp hlen.symm
    subst this
    simp [addBytes, toNat, Nat.mod_one]
  | cons a0 as ih =>
    intro b c hlen ha hb hc
    cases b with
    | nil => simp at hlen
    | cons b0 bs =>
      have ha0 : a0 < 256 := ha a0 (List.mem_cons_self _ _)
      have hb0 : b0 < 256 := hb b0 (List.mem_cons_self _ _)
      have hlen' : as.length = bs.length := by simpa using hlen
      have hc' : (a0 + b0 + c) / 256 % 2 ≤ 1 := by omega
      simp only [addBytes, toNat, List.length_cons]
      rw [ih bs _ hlen' (fun x hx => ha x (List.mem_cons_of_mem _ hx))
        (fun x hx => hb x (List.mem_cons_of_mem _ hx)) hc']
      rw [pow_succ']
      have hmod2 : (a0 + b0 + c) / 256 % 2 = (a0 + b0 + c) / 256 := by
        apply Nat.mod_eq_of_lt; omega
      rw [hmod2]
      have key : a0 + 256 * toNat as + (b0 + 256 * toNat bs) + c =
          (a0 + b0 + c) % 256 +
            256 * (toNat as + toNat bs + (a0 + b0 + c) / 256) := by omega
      rw [key, nat_block_mod _ _ _ (Nat.mod_lt _ (by norm_num))]

theorem subBytes_length : ∀ (a b : List Nat) (br : Int),
    (subBytes a b br).length = min a.length b.length := by
  intro a
  induction a with
  | nil => intro b br; cases b <;> simp [subBytes]
  | cons a0 as ih =>
    intro b br
    cases b with
    | nil => simp [subBytes]
    | cons b0 bs => simp [subBytes, ih, Nat.succ_min_succ]

theorem subBytes_lt : ∀ (a b : List Nat) (br : Int), ∀ x ∈ subBytes a b br, x < 256 := by
  intro a
  induction a with
  | nil => intro b br x hx; cases b <;> simp [subBytes] at hx
  | cons a0 as ih =>
    intro b br x hx
    cases b with
    | nil => simp [subBytes] at hx
    | cons b0 bs =>
      simp only [subBytes, List.mem_cons] at hx
      rcases hx with h | h
      · subst h
        have h1 : ((a0 : Int) - (b0 : Int) - br) % 256 < 256 :=
          Int.emod_lt_of_pos _ (by norm_num)
        omega
      · exact ih bs _ x h

theorem subBytes_toNat : ∀ (a b : List Nat) (br : Int), a.length = b.length →
    (∀ x ∈ a, x < 256) → (∀ x ∈ b, x < 256) → (br = 0 ∨ br = 1) →
    (toNat (subBytes a b br) : Int) =
      ((toNat a : Int) - (toNat b : Int) - br) % ((256 : Int) ^ a.length) := by
  intro a
  induction a with
  | nil =>
    intro b br hlen _ _ _
    have : b = [] := List.length_eq_zero.mp hlen.symm
    subst this
    simp [subBytes, toNat]
  | cons a0 as ih =>
    intro b br hlen ha hb hbr
    cases b with
    | nil => simp at hlen
    | cons b0 bs =>
      have ha0 : a0 < 256 := ha a0 (List.mem_cons_self _ _)
      have hb0 : b0 < 256 := hb b0 (List.mem_cons_self _ _)
      have hlen' : as.length = bs.length := by simpa using hlen
      set d : Int := (a0 : Int) - (b0 : Int) - br with hd
      set br' : Int := if d < 0 then 1 else 0 with hbr'
      have hdlow : -256 ≤ d := by rcases hbr with h | h <;> simp [hd, h] <;> omega
      have hdhigh : d < 256 := by rcases hbr with h | h <;> simp [hd, h] <;> omega
      have hbr'01 : br' = 0 ∨ br' = 1 := by
        by_cases h : d < 0 <;> simp [hbr', h]
      have hdmod : d % 256 = d + 256 * br' := by
        by_cases h : d < 0
        · simp only [hbr', if_pos h]
          have : d + 256 * 1 = d % 256 + 256 * (d / 256 + 1) := by
            have := Int.ediv_add_emod d 256
            linarith
          have hdiv : d / 256 = -1 := by
            have h1 : (-256 : Int) / 256 ≤ d / 256 :=
              Int.ediv_le_ediv (by norm_num) hdlow
            have h2 : d / 256 ≤ (-1 : Int) / 256 :=
              Int.ediv_le_ediv (by norm_num) (by omega)
            norm_num at h1 h2
            omega
          have := Int.ediv_add_emod d 256
          rw [hdiv] at this
          omega
        · simp only [hbr', if_neg h]
          push_neg at h
          rw [Int.emod_eq_of_lt h hdhigh]
          ring
      simp only [subBytes, toNat, List.length_cons]
      push_cast
      rw [ih bs br' hlen' (fun x hx => ha x (List.mem_cons_of_mem _ hx))
        (fun x hx => hb x (List.mem_cons_of_mem _ hx)) hbr'01]
      rw [Int.toNat_of_nonneg (Int.emod_nonneg d (by norm_num))]
      have key : (a0 : Int) + 256 * (toNat as : Int) -
          ((b0 : Int) + 256 * (toNat bs : Int)) - br =
          d % 256 + 256 * ((toNat as : Int) - (toNat bs : Int) - br') := by
        rw [hdmod]; simp only [hd]; ring
      rw [pow_succ']
      rw [key, int_block_mod _ _ _ (Int.emod_nonneg d (by norm_num))
        (Int.emod_lt_of_pos d (by norm_num)) (by positivity)]

theorem ebm_add_toNat (a b : List Nat) (hlen : a.length = b.length)
    (ha : ∀ x ∈ a, x < 256) (hb : ∀ x ∈ b, x < 256) :
    toNat (ebm_add a b) = (toNat a + toNat b) % 256 ^ a.length := by
  have := addBytes_toNat a b 0 hlen ha hb (by omega)
  simpa [ebm_add] using this

theorem ebm_add_length (a b : List Nat) (hlen : a.length = b.length) :
    (ebm_add a b).length = a.length := by
  simp [ebm_add, addBytes_length, hlen]

theorem ebm_add_lt (a b : List Nat) : ∀ x ∈ ebm_add a b, x < 256 :=
  addBytes_lt a b 0

theorem ebm_sub_length (a b : List Nat) (hlen : a.length = b.length) :
    (ebm_sub a b).length = a.length := by
  simp [ebm_sub, subBytes_length, hlen]

theorem ebm_sub_lt (a b : List Nat) : ∀ x ∈ ebm_sub a b, x < 256 :=
  subBytes_lt a b 0

theorem ebm_sub_ebm_add_cancel (a b : List Nat) (hlen : a.length = b.length)
    (ha : ∀ x ∈ a, x < 256) (hb : ∀ x ∈ b, x < 256) :
    ebm_sub (ebm_add a b) b = a := by
  have hs1len : (ebm_add a b).length = a.length := ebm_add_length a b hlen
  have hs1lt : ∀ x ∈ ebm_add a b, x < 256 := ebm_add_lt a b
  have hs1 : toNat (ebm_add a b) = (toNat a + toNat b) % 256 ^ a.length :=
    ebm_add_toNat a b hlen ha hb
  have hlen2 : (ebm_add a b).length = b.length := by rw [hs1len, hlen]
  have hsub := subBytes_toNat (ebm_add a b) b 0 hlen2 hs1lt hb (Or.inl rfl)
  have hAlt : toNat a < 256 ^ a.length := toNat_lt a ha
  have hmain : (toNat (ebm_sub (ebm_add a b) b) : Int) = (toNat a : Int) := by
    rw [ebm_sub, hsub, hs1, hs1len]
    push_cast
    rw [Int.sub_zero, Int.sub_emod, Int.emod_emod_of_dvd _ dvd_rfl, ← Int.sub_emod]
    have : (toNat a : Int) + (toNat b : Int) - (toNat b : Int) = (toNat a : Int) := by
      ring
    rw [this, Int.emod_eq_of_lt (by positivity) (by exact_mod_cast hAlt)]
  have htn : toNat (ebm_sub (ebm_add a b) b) = toNat a := by exact_mod_cast hmain
  apply toNat_inj _ _ _ (ebm_sub_lt _ _) ha htn
  rw [ebm_sub_length _ _ hlen2, hs1len]

/-- Carry-cascade while loop of `ebm_mul` (bitwise_arithmetic.rs, lines
261-266): while `carry > 0 && pos < 128`, add the carry into slot `pos`, keep
the low byte there and push the rest upward.  The loop condition `pos < 128`
is represented by the fuel argument, which is always `128 - pos` at the call
sites, so fuel 0 coincides with `pos = 128`. -/
def carryLoop : Nat → List Nat → Nat → Nat → List Nat
  | 0, slots, _, _ => slots
  | fuel + 1, slots, pos, carry =>
      if 0 < carry then
        carryLoop fuel (slots.set pos ((slots.getD pos 0 + carry) % 256)) (pos + 1)
          ((slots.getD pos 0 + carry) / 256)
      else slots

/-- Accumulation step of `ebm_mul` (lines 254-266): add a byte-pair product
into slot `position` (`current & 0xFF` stays, `current >> 8` cascades). -/
def addAt (slots : List Nat) (position product : Nat) : List Nat :=
  carryLoop (128 - (position + 1))
    (slots.set position ((slots.getD position 0 + product) % 256))
    (position + 1) ((slots.getD position 0 + product) / 256)

/-- Inner loop `for j in 0..size` of `ebm_mul`: processing the first `m`
values of `j` in ascending order, adding `a[i] * b[j]` into slot `i + j`. -/
def mulInner (ai : Nat) (b : List Nat) (i : Nat) : Nat → List Nat → List Nat
  | 0, slots => slots
  | m + 1, slots => addAt (mulInner ai b i m slots) (i + m) (ai * b.getD m 0)

/-- Outer loop `for i in 0..size` of `ebm_mul`, first `k` iterations. -/
def mulOuter (a b : List Nat) (size : Nat) : Nat → List Nat → List Nat
  | 0, slots => slots
  | k + 1, slots => mulInner (a.getD k 0) b k size (mulOuter a b size k slots)

/-- Accumulator contents after both loops of `ebm_mul`; the source starts
from `[0u32; 128]`. -/
def mulSlots (a b : List Nat) : List Nat :=
  mulOuter a b a.length a.length (List.replicate 128 0)

/-- Embedding of `ebm_mul` (bitwise_arithmetic.rs, lines 225-281): schoolbook
long multiplication over byte pairs; the first `size` accumulator slots,
truncated with `as u8`, form the result. -/
def ebm_mul (a b : List Nat) : List Nat :=
  (List.range a.length).map (fun i => (mulSlots a b).getD i 0 % 256)

theorem carryLoop_length : ∀ (fuel : Nat) (slots : List Nat) (pos carry : Nat),
    (carryLoop fuel slots pos carry).length = slots.length := by
  intro fuel
  induction fuel with
  | zero => intro slots pos carry; rfl
  | succ fuel ih =>
    intro slots pos carry
    rw [carryLoop]
    by_cases h : 0 < carry
    · rw [if_pos h, ih, List.length_set]
    · rw [if_neg h]

theorem carryLoop_lt : ∀ (fuel : Nat) (slots : List Nat) (pos carry : Nat),
    (∀ x ∈ slots, x < 256) → ∀ x ∈ carryLoop fuel slots pos carry, x < 256 := by
  intro fuel
  induction fuel with
  | zero => intro slots pos carry h; exact h
  | succ fuel ih =>
    intro slots pos carry h x hx
    rw [carryLoop] at hx
    by_cases hc : 0 < carry
    · rw [if_pos hc] at hx
      refine ih _ _ _ ?_ x hx
      intro y hy
      rcases List.mem_or_eq_of_mem_set hy with hy' | hy'
      · exact h y hy'
      · subst hy'; exact Nat.mod_lt _ (by norm_num)
    · rw [if_neg hc] at hx
      exact h x hx

theorem toNat_set : ∀ (l : List Nat) (k v : Nat), k < l.length →
    toNat (l.set k v) + l.getD k 0 * 256 ^ k = toNat l + v * 256 ^ k := by
  intro l
  induction l with
  | nil => intro k v h; simp at h
  | cons b rest ih =>
    intro k v h
    cases k with
    | zero =>
      simp only [List.set_cons_zero, toNat_cons, List.getD_cons_zero, pow_zero]
      ring
    | succ k =>
      have hk : k < rest.length := by simpa using h
      simp only [List.set_cons_succ, toNat_cons, List.getD_cons_succ]
      have h256 : (256 : Nat) ^ (k + 1) = 256 * 256 ^ k := pow_succ' 256 k
      rw [h256]
      calc b + 256 * toNat (rest.set k v) + rest.getD k 0 * (256 * 256 ^ k)
          = b + 256 * (toNat (rest.set k v) + rest.getD k 0 * 256 ^ k) := by ring
        _ = b + 256 * (toNat rest + v * 256 ^ k) := by rw [ih k v hk]
        _ = b + 256 * toNat rest + v * (256 * 256 ^ k) := by ring

theorem step_algebra (S T g c pos : Nat)
    (h : T + g * 256 ^ pos = S + ((g + c) % 256) * 256 ^ pos) :
    T + (g + c) / 256 * 256 ^ (pos + 1) = S + c * 256 ^ pos := by
  have hdm : (g + c) % 256 + 256 * ((g + c) / 256) = g + c := Nat.mod_add_div _ _
  apply Nat.add_right_cancel (m := g * 256 ^ pos)
  have h256 : (256 : Nat) ^ (pos + 1) = 256 * 256 ^ pos := pow_succ' 256 pos
  calc T + (g + c) / 256 * 256 ^ (pos + 1) + g * 256 ^ pos
      = (T + g * 256 ^ pos) + (g + c) / 256 * (256 * 256 ^ pos) := by rw [h256]; ring
    _ = (S + ((g + c) % 256) * 256 ^ pos) + (g + c) / 256 * (256 * 256 ^ pos) := by rw [h]
    _ = S + ((g + c) % 256 + 256 * ((g + c) / 256)) * 256 ^ pos := by ring
    _ = S + (g + c) * 256 ^ pos := by rw [hdm]
    _ = S + c * 256 ^ pos + g * 256 ^ pos := by ring

theorem carryLoop_toNat : ∀ (fuel : Nat) (slots : List Nat) (pos carry : Nat),
    slots.length = 128 → pos + fuel = 128 →
    toNat slots + carry * 256 ^ pos < 256 ^ 128 →
    toNat (carryLoop fuel slots pos carry) = toNat slots + carry * 256 ^ pos := by
  intro fuel
  induction fuel with
  | zero =>
    intro slots pos carry _ hpos hbound
    have hp : pos = 128 := by omega
    subst hp
    have hc : carry = 0 := by
      by_contra hc
      have h1 : 1 ≤ carry := Nat.one_le_iff_ne_zero.mpr hc
      have h2 : 256 ^ 128 ≤ carry * 256 ^ 128 := Nat.le_mul_of_pos_left _ h1
      omega
    subst hc
    simp [carryLoop]
  | succ fuel ih =>
    intro slots pos carry hlen hpos hbound
    rw [carryLoop]
    by_cases hc : 0 < carry
    · rw [if_pos hc]
      have hplt : pos < slots.length := by omega
      have hset := toNat_set slots pos ((slots.getD pos 0 + carry) % 256) hplt
      have halg := step_algebra (toNat slots)
        (toNat (slots.set pos ((slots.getD pos 0 + carry) % 256)))
        (slots.getD pos 0) carry pos hset
      rw [ih _ (pos + 1) _ (by rw [List.length_set]; exact hlen) (by omega)
        (by rw [halg]; exact hbound)]
      exact halg
    · rw [if_neg hc]
      have : carry = 0 := by omega
      subst this
      simp

theorem addAt_length (slots : List Nat) (pos product : Nat) :
    (addAt slots pos product).length = slots.length := by
  rw [addAt, carryLoop_length, List.length_set]

theorem addAt_lt (slots : List Nat) (pos product : Nat)
    (h : ∀ x ∈ slots, x < 256) : ∀ x ∈ addAt slots pos product, x < 256 := by
  rw [addAt]
  apply carryLoop_lt
  intro y hy
  rcases List.mem_or_eq_of_mem_set hy with hy' | hy'
  · exact h y hy'
  · subst hy'; exact Nat.mod_lt _ (by norm_num)

theorem addAt_toNat (slots : List Nat) (pos product : Nat)
    (hlen : slots.length = 128) (hpos : pos < 128)
    (hbound : toNat slots + product * 256 ^ pos < 256 ^ 128) :
    toNat (addAt slots pos product) = toNat slots + product * 256 ^ pos := by
  rw [addAt]
  have hplt : pos < slots.length := by omega
  have hset := toNat_set slots pos ((slots.getD pos 0 + product) % 256) hplt
  have halg := step_algebra (toNat slots)
    (toNat (slots.set pos ((slots.getD pos 0 + product) % 256)))
    (slots.getD pos 0) product pos hset
  rw [carryLoop_toNat _ _ _ _ (by rw [List.length_set]; exact hlen) (by omega)
    (by rw [halg]; exact hbound)]
  exact halg

theorem toNat_take_succ (l : List Nat) (m : Nat) (h : m < l.length) :
    toNat (l.take (m + 1)) = toNat (l.take m) + l.getD m 0 * 256 ^ m := by
  rw [List.take_succ, List.getElem?_eq_getElem h, toNat_append]
  rw [List.getD_eq_getElem?_getD, List.getElem?_eq_getElem h]
  simp only [List.length_take, Nat.min_eq_left (le_of_lt h), Option.toList_some,
    Option.getD_some, toNat_cons, toNat_nil]
  ring

theorem mulInner_length (ai : Nat) (b : List Nat) (i : Nat) :
    ∀ (m : Nat) (slots : List Nat), (mulInner ai b i m slots).length = slots.length := by
  intro m
  induction m with
  | zero => intro slots; rfl
  | succ m ih => intro slots; rw [mulInner, addAt_length, ih]

theorem mulInner_lt (ai : Nat) (b : List Nat) (i : Nat) :
    ∀ (m : Nat) (slots : List Nat), (∀ x ∈ slots, x < 256) →
    ∀ x ∈ mulInner ai b i m slots, x < 256 := by
  intro m
  induction m with
  | zero => intro slots h; exact h
  | succ m ih =>
    intro slots h
    rw [mulInner]
    exact addAt_lt _ _ _ (ih slots h)

theorem mulInner_toNat (ai : Nat) (b : List Nat) (i : Nat) :
    ∀ (m : Nat) (slots : List Nat), slots.length = 128 → (∀ x ∈ slots, x < 256) →
    m ≤ b.length → i + m ≤ 128 →
    toNat slots + ai * toNat (b.take m) * 256 ^ i < 256 ^ 128 →
    toNat (mulInner ai b i m slots) =
      toNat slots + ai * toNat (b.take m) * 256 ^ i := by
  intro m
  induction m with
  | zero => intro slots _ _ _ _ _; simp [mulInner, toNat]
  | succ m ih =>
    intro slots hlen hslt hm him hbound
    have hmb : m < b.length := by omega
    have htake := toNat_take_succ b m hmb
    have hmono : toNat (b.take m) ≤ toNat (b.take (m + 1)) := by rw [htake]; omega
    have hbound' : toNat slots + ai * toNat (b.take m) * 256 ^ i < 256 ^ 128 := by
      have : ai * toNat (b.take m) * 256 ^ i ≤ ai * toNat (b.take (m + 1)) * 256 ^ i := by
        apply Nat.mul_le_mul_right
        exact Nat.mul_le_mul_left _ hmono
      omega
    have hih := ih slots hlen hslt (by omega) (by omega) hbound'
    have hinlen : (mulInner ai b i m slots).length = 128 := by
      rw [mulInner_length, hlen]
    have hinlt := mulInner_lt ai b i m slots hslt
    have hkey : toNat (mulInner ai b i m slots) +
        ai * b.getD m 0 * 256 ^ (i + m) =
        toNat slots + ai * toNat (b.take (m + 1)) * 256 ^ i := by
      rw [hih, htake, pow_add]
      ring
    rw [mulInner, addAt_toNat _ _ _ hinlen (by omega) (by rw [hkey]; exact hbound)]
    exact hkey

theorem mulOuter_length (a b : List Nat) (size : Nat) :
    ∀ (k : Nat) (slots : List Nat), (mulOuter a b size k slots).length = slots.length := by
  intro k
  induction k with
  | zero => intro slots; rfl
  | succ k ih => intro slots; rw [mulOuter, mulInner_length, ih]

theorem mulOuter_lt (a b : List Nat) (size : Nat) :
    ∀ (k : Nat) (slots : List Nat), (∀ x ∈ slots, x < 256) →
    ∀ x ∈ mulOuter a b size k slots, x < 256 := by
  intro k
  induction k with
  | zero => intro slots h; exact h
  | succ k ih =>
    intro slots h
    rw [mulOuter]
    exact mulInner_lt _ _ _ _ _ (ih slots h)

theorem mulOuter_toNat (a b : List Nat) (hab : a.length = b.length)
    (h64 : a.length ≤ 64) (hb : ∀ x ∈ b, x < 256) :
    ∀ (k : Nat) (slots : List Nat), k ≤ a.length → slots.length = 128 →
    (∀ x ∈ slots, x < 256) →
    toNat slots + toNat (a.take k) * toNat b < 256 ^ 128 →
    toNat (mulOuter a b a.length k slots) =
      toNat slots + toNat (a.take k) * toNat b := by
  intro k
  induction k with
  | zero => intro slots _ _ _ _; simp [mulOuter, toNat]
  | succ k ih =>
    intro slots hk hlen hslt hbound
    have hka : k < a.length := by omega
    have htake := toNat_take_succ a k hka
    have hmono : toNat (a.take k) ≤ toNat (a.take (k + 1)) := by rw [htake]; omega
    have hbound' : toNat slots + toNat (a.take k) * toNat b < 256 ^ 128 := by
      have : toNat (a.take k) * toNat b ≤ toNat (a.take (k + 1)) * toNat b :=
        Nat.mul_le_mul_right _ hmono
      omega
    have hih := ih slots (by omega) hlen hslt hbound'
    have holen : (mulOuter a b a.length k slots).length = 128 := by
      rw [mulOuter_length, hlen]
    have holt := mulOuter_lt a b a.length k slots hslt
    have hbtake : b.take a.length = b := by rw [hab, List.take_length]
    have hkey : toNat (mulOuter a b a.length k slots) +
        a.getD k 0 * toNat b * 256 ^ k =
        toNat slots + toNat (a.take (k + 1)) * toNat b := by
      rw [hih, htake]
      ring
    rw [mulOuter, mulInner_toNat _ _ _ _ _ holen holt (le_of_eq hab) (by omega)
      (by rw [hbtake, hkey]; exact hbound)]
    rw [hbtake]
    exact hkey

theorem toNat_replicate_zero : ∀ n : Nat, toNat (List.replicate n 0) = 0 := by
  intro n
  induction n with
  | zero => rfl
  | succ n ih => simp [List.replicate_succ, toNat_cons, ih]

theorem mulSlots_length (a b : List Nat) : (mulSlots a b).length = 128 := by
  rw [mulSlots, mulOuter_length, List.length_replicate]

theorem mulSlots_lt (a b : List Nat) : ∀ x ∈ mulSlots a b, x < 256 := by
  rw [mulSlots]
  apply mulOuter_lt
  intro x hx
  rw [List.eq_of_mem_replicate hx]
  norm_num

theorem mulSlots_toNat (a b : List Nat) (hab : a.length = b.length)
    (h64 : a.length ≤ 64) (ha : ∀ x ∈ a, x < 256) (hb : ∀ x ∈ b, x < 256) :
    toNat (mulSlots a b) = toNat a * toNat b := by
  have hA : toNat a < 256 ^ 64 :=
    lt_of_lt_of_le (toNat_lt a ha) (Nat.pow_le_pow_right (by norm_num) h64)
  have hB : toNat b < 256 ^ 64 :=
    lt_of_lt_of_le (toNat_lt b hb)
      (Nat.pow_le_pow_right (by norm_num) (hab ▸ h64))
  have hbound : toNat a * toNat b < 256 ^ 128 := by
    calc toNat a * toNat b < 256 ^ 64 * 256 ^ 64 :=
          mul_lt_mul'' hA hB (Nat.zero_le _) (Nat.zero_le _)
      _ = 256 ^ 128 := by rw [← pow_add]
  rw [mulSlots, mulOuter_toNat a b hab h64 hb a.length _ le_rfl
    (List.length_replicate _ _)
    (by intro x hx; rw [List.eq_of_mem_replicate hx]; norm_num)
    (by rw [toNat_replicate_zero, List.take_length]; omega)]
  rw [toNat_replicate_zero, List.take_length]
  omega

theorem range_map_getD_take : ∀ (n : Nat) (l : List Nat), n ≤ l.length →
    (List.range n).map (fun i => l.getD i 0) = l.take n := by
  intro n
  induction n with
  | zero => intro l _; simp
  | succ n ih =>
    intro l h
    have hn : n < l.length := by omega
    rw [List.range_succ, List.map_append, ih l (by omega), List.take_succ,
      List.getElem?_eq_getElem hn]
    simp [List.getD_eq_getElem?_getD, List.getElem?_eq_getElem hn]

theorem toNat_take_mod (l : List Nat) (n : Nat) (hl : ∀ x ∈ l, x < 256)
    (hn : n ≤ l.length) : toNat (l.take n) = toNat l % 256 ^ n := by
  have hsplit : toNat l = toNat (l.take n) + 256 ^ n * toNat (l.drop n) := by
    conv_lhs => rw [← List.take_append_drop n l]
    rw [toNat_append, List.length_take, Nat.min_eq_left hn]
  have htlt : toNat (l.take n) < 256 ^ n := by
    have := toNat_lt (l.take n) (fun x hx => hl x (List.mem_of_mem_take hx))
    rwa [List.length_take, Nat.min_eq_left hn] at this
  rw [hsplit, Nat.add_mul_mod_self_left, Nat.mod_eq_of_lt htlt]

theorem ebm_mul_toNat (a b : List Nat) (hab : a.length = b.length)
    (h64 : a.length ≤ 64) (ha : ∀ x ∈ a, x < 256) (hb : ∀ x ∈ b, x < 256) :
    toNat (ebm_mul a b) = toNat a * toNat b % 256 ^ a.length := by
  have hslt := mulSlots_lt a b
  have hslen := mulSlots_length a b
  have hW : a.length ≤ (mulSlots a b).length := by omega
  have hmap : ebm_mul a b = (List.range a.length).map (fun i => (mulSlots a b).getD i 0) := by
    rw [ebm_mul]
    apply List.map_congr_left
    intro i hi
    have hi' : i < (mulSlots a b).length := by
      rw [hslen]
      have := List.mem_range.mp hi
      omega
    have : (mulSlots a b).getD i 0 < 256 := by
      rw [List.getD_eq_getElem?_getD, List.getElem?_eq_getElem hi']
      exact hslt _ (List.getElem_mem hi')
    exact Nat.mod_eq_of_lt this
  rw [hmap, range_map_getD_take _ _ hW, toNat_take_mod _ _ hslt hW,
    mulSlots_toNat a b hab h64 ha hb]

theorem ebm_mul_length (a b : List Nat) : (ebm_mul a b).length = a.length := by
  simp [ebm_mul]

theorem ebm_mul_lt (a b : List Nat) : ∀ x ∈ ebm_mul a b, x < 256 := by
  intro x hx
  simp only [ebm_mul, List.mem_map] at hx
  obtain ⟨i, _, rfl⟩ := hx
  exact Nat.mod_lt _ (by norm_num)

/-- Reassembly loop of `ebm_div`/`ebm_mod` (bitwise_arithmetic.rs, lines
349-352 and 441-444): `acc |= (bytes[i] as u64) << (i * 8)` for `i` in
`0..w`.  The shift count on the `u64` is reduced `% 64`, which is what the
compiled (release) Rust shift does; for the supported widths (at most 8
bytes) the count is below 64 and the reduction is the identity. -/
def assemble64 (xs : List Nat) : Nat → Nat
  | 0 => 0
  | w + 1 => assemble64 xs w ||| (xs.getD w 0 <<< (w * 8 % 64))

/-- Embedding of `ebm_div` (bitwise_arithmetic.rs, lines 327-373): reassemble
both operands into a wide accumulator, return the all-zero value when the
divisor is zero, otherwise decompose `dividend / divisor` back into
`size` little-endian bytes. -/
def ebm_div (a b : List Nat) : List Nat :=
  if assemble64 b a.length = 0 then List.replicate a.length 0
  else
    (List.range a.length).map
      (fun i => (assemble64 a a.length / assemble64 b a.length) >>> (i * 8 % 64) % 256)

/-- Embedding of `ebm_mod` (bitwise_arithmetic.rs, lines 419-465): as
`ebm_div` but decomposing `dividend % divisor`. -/
def ebm_mod (a b : List Nat) : List Nat :=
  if assemble64 b a.length = 0 then List.replicate a.length 0
  else
    (List.range a.length).map
      (fun i => (assemble64 a a.length % assemble64 b a.length) >>> (i * 8 % 64) % 256)

theorem assemble64_take : ∀ (w : Nat) (xs : List Nat), w ≤ 8 → w ≤ xs.length →
    (∀ x ∈ xs, x < 256) → assemble64 xs w = toNat (xs.take w) := by
  intro w
  induction w with
  | zero => intro xs _ _ _; rfl
  | succ w ih =>
    intro xs h8 hlen hx
    have hw8 : w * 8 % 64 = w * 8 := Nat.mod_eq_of_lt (by omega)
    have hpow : (256 : Nat) ^ w = 2 ^ (w * 8) := by
      rw [Nat.mul_comm w 8, Nat.pow_mul]
    have hA : toNat (xs.take w) < 2 ^ (w * 8) := by
      rw [← hpow]
      have := toNat_lt (xs.take w) (fun x hxm => hx x (List.mem_of_mem_take hxm))
      rwa [List.length_take, Nat.min_eq_left (by omega)] at this
    rw [assemble64, ih xs (by omega) (by omega) hx, hw8, Nat.shiftLeft_eq,
      Nat.lor_comm, Nat.mul_comm (xs.getD w 0) (2 ^ (w * 8)),
      ← Nat.mul_add_lt_is_or hA, toNat_take_succ xs w (by omega), hpow]
    ring

theorem assemble64_eq_toNat (xs : List Nat) (h8 : xs.length ≤ 8)
    (hx : ∀ x ∈ xs, x < 256) : assemble64 xs xs.length = toNat xs := by
  rw [assemble64_take xs.length xs h8 le_rfl hx, List.take_length]

theorem getD_replicate_zero (n i : Nat) : (List.replicate n 0).getD i 0 = 0 := by
  rw [List.getD_eq_getElem?_getD, List.getElem?_replicate]
  by_cases h : i < n <;> simp [h]

theorem assemble64_replicate_zero : ∀ (w n : Nat),
    assemble64 (List.replicate n 0) w = 0 := by
  intro w
  induction w with
  | zero => intro n; rfl
  | succ w ih =>
    intro n
    rw [assemble64, ih n, getD_replicate_zero, Nat.zero_shiftLeft]
    rfl

theorem ebm_div_eq (a b : List Nat) (hlen : a.length = b.length)
    (h8 : a.length ≤ 8) (ha : ∀ x ∈ a, x < 256) (hb : ∀ x ∈ b, x < 256)
    (hbz : toNat b ≠ 0) : ebm_div a b = fromNat a.length (toNat a / toNat b) := by
  have hBb : assemble64 b a.length = toNat b := by
    rw [hlen]; exact assemble64_eq_toNat b (hlen ▸ h8) hb
  have hAa : assemble64 a a.length = toNat a := assemble64_eq_toNat a h8 ha
  rw [ebm_div, if_neg (by rw [hBb]; exact hbz), hAa, hBb, fromNat]
  apply List.map_congr_left
  intro i hi
  have hi8 : i < 8 := by
    have := List.mem_range.mp hi
    omega
  have h64 : i * 8 % 64 = i * 8 := Nat.mod_eq_of_lt (by omega)
  rw [h64, Nat.shiftRight_eq_div_pow]
  congr 2
  rw [Nat.mul_comm i 8, Nat.pow_mul]

theorem ebm_mod_eq (a b : List Nat) (hlen : a.length = b.length)
    (h8 : a.length ≤ 8) (ha : ∀ x ∈ a, x < 256) (hb : ∀ x ∈ b, x < 256)
    (hbz : toNat b ≠ 0) : ebm_mod a b = fromNat a.length (toNat a % toNat b) := by
  have hBb : assemble64 b a.length = toNat b := by
    rw [hlen]; exact assemble64_eq_toNat b (hlen ▸ h8) hb
  have hAa : assemble64 a a.length = toNat a := assemble64_eq_toNat a h8 ha
  rw [ebm_mod, if_neg (by rw [hBb]; exact hbz), hAa, hBb, fromNat]
  apply List.map_congr_left
  intro i hi
  have hi8 : i < 8 := by
    have := List.mem_range.mp hi
    omega
  have h64 : i * 8 % 64 = i * 8 := Nat.mod_eq_of_lt (by omega)
  rw [h64, Nat.shiftRight_eq_div_pow]
  congr 2
  rw [Nat.mul_comm i 8, Nat.pow_mul]

/-- Model of `usize::wrapping_sub` on a 64-bit platform, as used for the
source byte index in `ebm_left_shift` and `ebm_left_rotate`. -/
def wrapSub64 (i k : Nat) : Nat := (i + 2 ^ 64 - k) % 2 ^ 64

/-- Embedding of `ebm_left_shift` (bitwise_shifting.rs, lines 59-121): clamp
the count, handle the 0 and full-width cases, then for each output byte take
the input byte `full_byte_shift` positions lower and shift it left inside the
byte (dropping whatever leaves the byte). -/
def ebm_left_shift (a : List Nat) (n : Nat) : List Nat :=
  if min n (8 * a.length) = 0 then a
  else if 8 * a.length ≤ min n (8 * a.length) then List.replicate a.length 0
  else
    (List.range a.length).map (fun i =>
      if wrapSub64 i (min n (8 * a.length) / 8) < a.length then
        a.getD (wrapSub64 i (min n (8 * a.length) / 8)) 0 <<<
          (min n (8 * a.length) % 8) % 256
      else 0)

/-- Embedding of `ebm_right_shift` (bitwise_shifting.rs, lines 173-235):
mirror of the left shift, sourcing from `i + full_byte_shift` and shifting
right inside each byte. -/
def ebm_right_shift (a : List Nat) (n : Nat) : List Nat :=
  if min n (8 * a.length) = 0 then a
  else if 8 * a.length ≤ min n (8 * a.length) then List.replicate a.length 0
  else
    (List.range a.length).map (fun i =>
      if i + min n (8 * a.length) / 8 < a.length then
        a.getD (i + min n (8 * a.length) / 8) 0 >>> (min n (8 * a.length) % 8)
      else 0)

/-- Model of `u8::rotate_left`. -/
def rotl8 (x r : Nat) : Nat := x <<< (r % 8) % 256 ||| x >>> ((8 - r % 8) % 8)

/-- Model of `u8::rotate_right`. -/
def rotr8 (x r : Nat) : Nat := x >>> (r % 8) ||| x <<< ((8 - r % 8) % 8) % 256

/-- Embedding of `ebm_left_rotate` (bitwise_shifting.rs, lines 287-340):
reduce the count modulo the bit width, rotate the byte sequence by
`full_byte_rotate` positions, and rotate each byte internally by the
remaining bit count with `u8::rotate_left`. -/
def ebm_left_rotate (a : List Nat) (n : Nat) : List Nat :=
  if n % (8 * a.length) = 0 then a
  else
    (List.range a.length).map (fun i =>
      rotl8 (a.getD (wrapSub64 i (n % (8 * a.length) / 8) % a.length) 0)
        (n % (8 * a.length) % 8))

/-- Embedding of `ebm_right_rotate` (bitwise_shifting.rs, lines 393-446):
mirror of the left rotation, using `(i + full_byte_rotate) % size` and
`u8::rotate_right`. -/
def ebm_right_rotate (a : List Nat) (n : Nat) : List Nat :=
  if n % (8 * a.length) = 0 then a
  else
    (List.range a.length).map (fun i =>
      rotr8 (a.getD ((i + n % (8 * a.length) / 8) % a.length) 0)
        (n % (8 * a.length) % 8))

/-- Inner bit scan of `ebm_leading_zeros` (bitwise_counting.rs, lines
158-164): bits of one byte from position `k - 1` down to 0, counting zeros
until the first set bit. -/
def lzBits (x : Nat) : Nat → Nat
  | 0 => 0
  | k + 1 => if x / 2 ^ k % 2 = 1 then 0 else 1 + lzBits x k

/-- Inner bit scan of `ebm_leading_ones` (lines 240-246): ones until the
first clear bit, from the high bit of the byte down. -/
def loBits (x : Nat) : Nat → Nat
  | 0 => 0
  | k + 1 => if x / 2 ^ k % 2 = 0 then 0 else 1 + loBits x k

/-- Embedding of `ebm_leading_zeros` (bitwise_counting.rs, lines 132-170):
the byte loop runs `for i in 0..size`, i.e. from the LEAST significant byte
upward in the little-endian layout; an all-zero byte adds 8, otherwise the
byte is scanned from its high bit and the count so far is returned. -/
def ebm_leading_zeros : List Nat → Nat
  | [] => 0
  | b :: rest => if b = 0 then 8 + ebm_leading_zeros rest else lzBits b 8

/-- Embedding of `ebm_leading_ones` (bitwise_counting.rs, lines 214-252):
same least-significant-first byte order, counting 0xFF bytes. -/
def ebm_leading_ones : List Nat → Nat
  | [] => 0
  | b :: rest => if b = 255 then 8 + ebm_leading_ones rest else loBits b 8

/-- Reference function written from the words of the spec (section 4.5) for
comparison with `ebm_left_shift`: the true logical left shift of the whole
W-byte little-endian bit pattern, bits crossing byte boundaries carried into
the adjacent higher-order byte. -/
def specLeftShift (a : List Nat) (n : Nat) : List Nat :=
  fromNat a.length (toNat a * 2 ^ n)

/-- Reference function from the spec: true logical right shift of the whole
bit pattern. -/
def specRightShift (a : List Nat) (n : Nat) : List Nat :=
  fromNat a.length (toNat a / 2 ^ n)

/-- Reference function from the spec (section 4.5): true circular left
rotation of the whole 8*W-bit pattern by `n` reduced modulo the bit width. -/
def specLeftRotate (a : List Nat) (n : Nat) : List Nat :=
  fromNat a.length
    (toNat a * 2 ^ (n % (8 * a.length)) % 2 ^ (8 * a.length) +
      toNat a / 2 ^ (8 * a.length - n % (8 * a.length)))

/-- Reference function from the spec: true circular right rotation of the
whole 8*W-bit pattern. -/
def specRightRotate (a : List Nat) (n : Nat) : List Nat :=
  fromNat a.length
    (toNat a / 2 ^ (n % (8 * a.length)) +
      toNat a * 2 ^ (8 * a.length - n % (8 * a.length)) % 2 ^ (8 * a.length))

/-- Byte scan of the spec (section 4.6) for leading zeros, taking the bytes
MOST significant first; the head of the argument is the most significant
byte. -/
def lzMsb : List Nat → Nat
  | [] => 0
  | b :: rest => if b = 0 then 8 + lzMsb rest else lzBits b 8

/-- Byte scan of the spec for leading ones, most significant byte first. -/
def loMsb : List Nat → Nat
  | [] => 0
  | b :: rest => if b = 255 then 8 + loMsb rest else loBits b 8

/-- Reference function written from the words of the claim and of spec
section 4.6: scan bytes from most-significant to least-significant (the
little-endian list reversed), within a byte from high bit to low bit. -/
def specLeadingZeros (a : List Nat) : Nat := lzMsb a.reverse

/-- Reference function from the spec for the leading-ones count. -/
def specLeadingOnes (a : List Nat) : Nat := loMsb a.reverse

set_option maxRecDepth 100000 in
theorem rot8_inverse : ∀ x < 256, ∀ r < 8, rotr8 (rotl8 x r) r = x := by decide

theorem rotate_index (W fb i : Nat) (hW : 2 ^ 64 % W = 0) (hfb : fb < W)
    (hi : i < W) : wrapSub64 ((i + fb) % W) fb % W = i := by
  have hdvd : W ∣ 2 ^ 64 := Nat.dvd_of_mod_eq_zero hW
  obtain ⟨c, hc⟩ := hdvd
  have hc1 : 1 ≤ c := by
    rcases Nat.eq_zero_or_pos c with h | h
    · rw [h, mul_zero] at hc; norm_num at hc
    · exact h
  have hfbc : fb ≤ W * c := by
    calc fb ≤ W := le_of_lt hfb
      _ ≤ W * c := Nat.le_mul_of_pos_right W hc1
  rw [wrapSub64, Nat.mod_mod_of_dvd _ ⟨c, hc⟩, hc]
  have h1 : (i + fb) % W + W * c - fb = (i + fb) % W + (W * c - fb) := by omega
  rw [h1, Nat.mod_add_mod]
  have h2 : i + fb + (W * c - fb) = i + W * c := by omega
  rw [h2, Nat.add_mul_mod_self_left]
  exact Nat.mod_eq_of_lt hi

theorem ebm_rotate_roundtrip (a : List Nat) (n : Nat) (ha : ∀ x ∈ a, x < 256)
    (hdvd : 2 ^ 64 % a.length = 0) :
    ebm_right_rotate (ebm_left_rotate a n) n = a := by
  have hW0 : 0 < a.length := by
    rcases Nat.eq_zero_or_pos a.length with h | h
    · rw [h, Nat.mod_zero] at hdvd; norm_num at hdvd
    · exact h
  by_cases hw : n % (8 * a.length) = 0
  · rw [ebm_left_rotate, if_pos hw, ebm_right_rotate, if_pos hw]
  · rw [ebm_left_rotate, if_neg hw]
    have hLlen : ((List.range a.length).map (fun i =>
        rotl8 (a.getD (wrapSub64 i (n % (8 * a.length) / 8) % a.length) 0)
          (n % (8 * a.length) % 8))).length = a.length := by
      simp
    rw [ebm_right_rotate]
    simp only [hLlen]
    rw [if_neg hw]
    have hfbW : n % (8 * a.length) / 8 < a.length := by
      have h1 : n % (8 * a.length) < 8 * a.length := Nat.mod_lt _ (by omega)
      omega
    have key : ∀ i ∈ List.range a.length,
        rotr8 (((List.range a.length).map (fun j =>
          rotl8 (a.getD (wrapSub64 j (n % (8 * a.length) / 8) % a.length) 0)
            (n % (8 * a.length) % 8))).getD
          ((i + n % (8 * a.length) / 8) % a.length) 0)
          (n % (8 * a.length) % 8) = a.getD i 0 := by
      intro i hi
      have hiW : i < a.length := List.mem_range.mp hi
      have hjW : (i + n % (8 * a.length) / 8) % a.length < a.length :=
        Nat.mod_lt _ hW0
      rw [List.getD_eq_getElem?_getD, List.getElem?_map, List.getElem?_range hjW]
      simp only [Option.map_some', Option.getD_some]
      rw [rotate_index a.length (n % (8 * a.length) / 8) i hdvd hfbW hiW]
      have hx : a.getD i 0 < 256 := by
        rw [List.getD_eq_getElem?_getD, List.getElem?_eq_getElem hiW]
        exact ha _ (List.getElem_mem hiW)
      exact rot8_inverse _ hx _ (Nat.mod_lt _ (by norm_num))
    rw [List.map_congr_left key, range_map_getD_take a.length a le_rfl,
      List.take_length]

theorem ebm_euclid (a b : List Nat) (hlen : a.length = b.length)
    (h8 : a.length ≤ 8) (ha : ∀ x ∈ a, x < 256) (hb : ∀ x ∈ b, x < 256)
    (hbz : toNat b ≠ 0) :
    ebm_add (ebm_mul (ebm_div a b) b) (ebm_mod a b) = a := by
  have hAlt : toNat a < 256 ^ a.length := toNat_lt a ha
  have hBlt : toNat b < 256 ^ a.length := by rw [hlen]; exact toNat_lt b hb
  have hdiv := ebm_div_eq a b hlen h8 ha hb hbz
  have hmod := ebm_mod_eq a b hlen h8 ha hb hbz
  have hqlen : (ebm_div a b).length = a.length := by rw [hdiv, fromNat_length]
  have hqlt : ∀ x ∈ ebm_div a b, x < 256 := by rw [hdiv]; exact fromNat_bytes_lt _ _
  have hqval : toNat (ebm_div a b) = toNat a / toNat b := by
    rw [hdiv, toNat_fromNat]
    exact Nat.mod_eq_of_lt (lt_of_le_of_lt (Nat.div_le_self _ _) hAlt)
  have hrlen : (ebm_mod a b).length = a.length := by rw [hmod, fromNat_length]
  have hrlt : ∀ x ∈ ebm_mod a b, x < 256 := by rw [hmod]; exact fromNat_bytes_lt _ _
  have hrval : toNat (ebm_mod a b) = toNat a % toNat b := by
    rw [hmod, toNat_fromNat]
    apply Nat.mod_eq_of_lt
    calc toNat a % toNat b < toNat b := Nat.mod_lt _ (Nat.pos_of_ne_zero hbz)
      _ < 256 ^ a.length := hBlt
  have hmlen1 : (ebm_div a b).length = b.length := by rw [hqlen, hlen]
  have hmul := ebm_mul_toNat (ebm_div a b) b hmlen1 (by rw [hqlen]; omega) hqlt hb
  rw [hqval, hqlen] at hmul
  have hmullen : (ebm_mul (ebm_div a b) b).length = a.length := by
    rw [ebm_mul_length, hqlen]
  have haddlen : (ebm_mul (ebm_div a b) b).length = (ebm_mod a b).length := by
    rw [hmullen, hrlen]
  have hadd := ebm_add_toNat _ _ haddlen (ebm_mul_lt _ _) hrlt
  rw [hmul, hrval, hmullen] at hadd
  have hfin : toNat (ebm_add (ebm_mul (ebm_div a b) b) (ebm_mod a b)) = toNat a := by
    rw [hadd, Nat.mod_add_mod]
    have hdm : toNat a / toNat b * toNat b + toNat a % toNat b = toNat a := by
      rw [Nat.mul_comm]
      exact Nat.div_add_mod _ _
    rw [hdm]
    exact Nat.mod_eq_of_lt hAlt
  exact toNat_inj _ a
    (by rw [ebm_add_length _ _ haddlen, hmullen]) (ebm_add_lt _ _) ha hfin

/-- C1: the claim states that for 0 < n < 8*W `ebm_left_shift` equals the
true logical left shift of the W-byte little-endian pattern, with bits
shifted out of a byte OR-ed into the adjacent higher-order output byte, and
`ebm_right_shift` the mirror image.  The code instead shifts every byte in
isolation and drops the crossing bits: at the 16-bit value 0x00FF (bytes
[255, 0]) with n = 1 it returns 0x00FE where the true shift gives 0x01FE,
and at 0xFF00 (bytes [0, 255]) with n = 1 the right shift returns 0x7F00
where the true shift gives 0x7F80. -/
theorem C1_shift_drops_cross_byte_bits :
    ebm_left_shift [255, 0] 1 = [254, 0] ∧ specLeftShift [255, 0] 1 = [254, 1] ∧
    ebm_right_shift [0, 255] 1 = [0, 127] ∧ specRightShift [0, 255] 1 = [128, 127] := by
  decide

/-- C2: the claim states that `ebm_leading_zeros` counts zero bits from the
most significant bit down, scanning bytes from most-significant to
least-significant, and `ebm_leading_ones` likewise for ones.  The byte loop
of the code runs `for i in 0..size`, which in the little-endian layout is
least-significant byte first: at the 16-bit value 0x8000 (bytes [0, 128])
the code returns 8 where the claimed scan gives 0, and at 0xF0FF (bytes
[255, 240]) `ebm_leading_ones` returns 12 where the claimed scan gives 4. -/
theorem C2_leading_counts_scan_wrong_byte_order :
    ebm_leading_zeros [0, 128] = 8 ∧ specLeadingZeros [0, 128] = 0 ∧
    ebm_leading_ones [255, 240] = 12 ∧ specLeadingOnes [255, 240] = 4 := by
  decide

/-- C3: the claim states that `ebm_left_rotate` equals the true circular
rotation of the whole 8*W-bit pattern.  The code rotates the byte sequence
by whole bytes but rotates the remaining bit amount inside each byte
separately, so bits leaving a byte re-enter the same byte instead of the
adjacent one: at the 16-bit value 0x0080 (bytes [128, 0]) rotated left by 1
the code returns 0x0001 where the true rotation gives 0x0100, and at 0x0001
rotated right by 1 it returns 0x0080 where the true rotation gives 0x8000. -/
theorem C3_rotate_is_not_whole_value_rotation :
    ebm_left_rotate [128, 0] 1 = [1, 0] ∧ specLeftRotate [128, 0] 1 = [0, 1] ∧
    ebm_right_rotate [1, 0] 1 = [128, 0] ∧ specRightRotate [1, 0] 1 = [0, 128] := by
  decide

/-- C4: for same-width byte values, `ebm_add` computes the sum modulo
2^(8*W): the byte loop runs least to most significant, each output byte is
`(a[i] + b[i] + carry) mod 256` with carry exactly when the sum reaches 256,
and the final carry is discarded. -/
theorem C4_add_is_sum_mod_width (a b : List Nat) (hlen : a.length = b.length)
    (ha : ∀ x ∈ a, x < 256) (hb : ∀ x ∈ b, x < 256) :
    toNat (ebm_add a b) = (toNat a + toNat b) % 256 ^ a.length :=
  ebm_add_toNat a b hlen ha hb

/-- Witness for C4 at the wrapping example a = [255], b = [1]. -/
theorem C4_add_is_sum_mod_width_witness :
    toNat (ebm_add [255] [1]) =
      (toNat [255] + toNat [1]) % 256 ^ ([255] : List Nat).length :=
  C4_add_is_sum_mod_width [255] [1] rfl (by decide) (by decide)

/-- C5: for same-width byte values, `ebm_mul` computes the product modulo
2^(8*W): every byte pair (i, j) contributes `a[i] * b[j]` into accumulator
slot i + j with carries cascading upward, and the first W slots form the
truncated result.  The width is at most 64 bytes because the source stores
any value in a 64-byte buffer. -/
theorem C5_mul_is_product_mod_width (a b : List Nat)
    (hlen : a.length = b.length) (h64 : a.length ≤ 64)
    (ha : ∀ x ∈ a, x < 256) (hb : ∀ x ∈ b, x < 256) :
    toNat (ebm_mul a b) = toNat a * toNat b % 256 ^ a.length :=
  ebm_mul_toNat a b hlen h64 ha hb

/-- Witness for C5 at the 16-bit wrapping example 0xFFFF * 0xFFFF. -/
theorem C5_mul_is_product_mod_width_witness :
    toNat (ebm_mul [255, 255] [255, 255]) =
      toNat [255, 255] * toNat [255, 255] % 256 ^ ([255, 255] : List Nat).length :=
  C5_mul_is_product_mod_width [255, 255] [255, 255] rfl (by decide) (by decide)
    (by decide)

/-- C6: for widths of at most 8 bytes and a nonzero divisor, `ebm_div` and
`ebm_mod` return the integer quotient and remainder of the numbers obtained
by little-endian positional reassembly (sum of byte[i]*256^i), redecomposed
into W little-endian output bytes. -/
theorem C6_div_mod_reassembly (a b : List Nat) (hlen : a.length = b.length)
    (h8 : a.length ≤ 8) (ha : ∀ x ∈ a, x < 256) (hb : ∀ x ∈ b, x < 256)
    (hbz : toNat b ≠ 0) :
    ebm_div a b = fromNat a.length (toNat a / toNat b) ∧
    ebm_mod a b = fromNat a.length (toNat a % toNat b) :=
  ⟨ebm_div_eq a b hlen h8 ha hb hbz, ebm_mod_eq a b hlen h8 ha hb hbz⟩

/-- Witness for C6 at a = [17], b = [5]. -/
theorem C6_div_mod_reassembly_witness :
    ebm_div [17] [5] = fromNat ([17] : List Nat).length (toNat [17] / toNat [5]) ∧
    ebm_mod [17] [5] = fromNat ([17] : List Nat).length (toNat [17] % toNat [5]) :=
  C6_div_mod_reassembly [17] [5] rfl (by decide) (by decide) (by decide) (by decide)

/-- C7: dividing or reducing any value by the all-zero value of its width
returns the all-zero value of that width instead of failing. -/
theorem C7_div_mod_by_zero_gives_zero (a : List Nat) :
    ebm_div a (List.replicate a.length 0) = List.replicate a.length 0 ∧
    ebm_mod a (List.replicate a.length 0) = List.replicate a.length 0 := by
  constructor
  · rw [ebm_div, if_pos (assemble64_replicate_zero _ _)]
  · rw [ebm_mod, if_pos (assemble64_replicate_zero _ _)]

/-- C8: subtraction with borrow undoes addition with carry under the
wraparound semantics: `ebm_sub (ebm_add a b) b = a` for same-width byte
values. -/
theorem C8_sub_inverts_add (a b : List Nat) (hlen : a.length = b.length)
    (ha : ∀ x ∈ a, x < 256) (hb : ∀ x ∈ b, x < 256) :
    ebm_sub (ebm_add a b) b = a :=
  ebm_sub_ebm_add_cancel a b hlen ha hb

/-- Witness for C8 at a = [250, 1], b = [20, 3], where the addition wraps. -/
theorem C8_sub_inverts_add_witness :
    ebm_sub (ebm_add [250, 1] [20, 3]) [20, 3] = [250, 1] :=
  C8_sub_inverts_add [250, 1] [20, 3] rfl (by decide) (by decide)

/-- C9: left rotation followed by right rotation by the same amount restores
the value exactly, for every rotate amount and every value whose byte width
divides 2^64 (all widths of the data model, 1/2/4/8/16 bytes, do). -/
theorem C9_rotate_roundtrip (a : List Nat) (n : Nat) (ha : ∀ x ∈ a, x < 256)
    (hdvd : 2 ^ 64 % a.length = 0) :
    ebm_right_rotate (ebm_left_rotate a n) n = a :=
  ebm_rotate_roundtrip a n ha hdvd

/-- Witness for C9 at the 16-bit value [1, 128] rotated by 3. -/
theorem C9_rotate_roundtrip_witness :
    ebm_right_rotate (ebm_left_rotate [1, 128] 3) 3 = [1, 128] :=
  C9_rotate_roundtrip [1, 128] 3 (by decide) (by decide)

/-- C10: for widths of at most 8 bytes and a nonzero divisor, quotient times
divisor plus remainder reconstructs the dividend through the kernel
operations themselves: `ebm_add (ebm_mul (ebm_div a b) b) (ebm_mod a b) = a`. -/
theorem C10_euclid_identity (a b : List Nat) (hlen : a.length = b.length)
    (h8 : a.length ≤ 8) (ha : ∀ x ∈ a, x < 256) (hb : ∀ x ∈ b, x < 256)
    (hbz : toNat b ≠ 0) :
    ebm_add (ebm_mul (ebm_div a b) b) (ebm_mod a b) = a :=
  ebm_euclid a b hlen h8 ha hb hbz

/-- Witness for C10 at a = [17], b = [5]. -/
theorem C10_euclid_identity_witness :
    ebm_add (ebm_mul (ebm_div [17] [5]) [5]) (ebm_mod [17] [5]) = [17] :=
  C10_euclid_identity [17] [5] rfl (by decide) (by decide) (by decide) (by decide)

end Eidolon
